import Mathlib

/-!
Shallow embedding of the analytical core of `src/analyzer.py`
(class `SnowAnalyzer`): the equivalence solver `find_equivalent_days`,
the snow-year calendar generator `get_snow_year_dates`, and the
profile builders `calculate_daily_medians` / `calculate_daily_means`.

Modelling conventions:
* Python floats are modelled as rationals (`ℚ`); the algorithms only
  use ordered-field operations and exact comparisons.
* Python `datetime.date` values in the solver are modelled by an
  arbitrary linearly ordered type `α` (the solver only compares,
  sorts and deduplicates dates).
* The calendar generator is modelled over a concrete `Date` structure
  (proleptic Gregorian calendar, year in `ℤ`), with `timedelta(days=i)`
  addition modelled as `i`-fold iteration of the successor-day function.
-/

-- Batteries marks the rational operations `@[irreducible]` for elaboration
-- performance; re-opening them locally lets `decide` evaluate concrete
-- profiles (the kernel ignores reducibility annotations, so this changes
-- nothing about what is provable).
attribute [local semireducible] Rat.sub Rat.add Rat.mul Rat.inv

namespace SnowAnalyzer

/-! ### Equivalence solver (`find_equivalent_days`) -/

variable {α : Type} [LinearOrder α]

/-- Loop body of the adjacent-pair scan in `find_equivalent_days`
(`src/analyzer.py` lines 104-118): for one adjacent pair, emit the
candidate dates recorded for index `i` of the loop.  `p` is
`median_year_data[i]`, `q` is `median_year_data[i+1]`. -/
def pairStep (t : ℚ) (p q : α × ℚ) : List α :=
  let diff1 := p.2 - t
  let diff2 := q.2 - t
  if diff1 = 0 then [p.1]
  else if (0 < diff1 ∧ diff2 < 0) ∨ (diff1 < 0 ∧ 0 < diff2) then
    if |diff1| < |diff2| then [p.1] else [q.1]
  else []

/-- The candidates recorded by the `for i in range(len(diffs) - 1)` loop
of `find_equivalent_days`, as a recursion over adjacent pairs. -/
def candidatesLoop (t : ℚ) : List (α × ℚ) → List α
  | p :: q :: rest => pairStep t p q ++ candidatesLoop t (q :: rest)
  | _ => []

/-- The candidates recorded by the final check
`if diffs and diffs[-1] == 0` of `find_equivalent_days`. -/
def lastCandidate (t : ℚ) (profile : List (α × ℚ)) : List α :=
  match profile.getLast? with
  | some (d, v) => if v - t = 0 then [d] else []
  | none => []

/-- All candidates recorded by `find_equivalent_days` before the
fallback / collapse step. -/
def candidates (t : ℚ) (profile : List (α × ℚ)) : List α :=
  candidatesLoop t profile ++ lastCandidate t profile

/-- Fallback scan of `find_equivalent_days` (lines 127-133): index of
the entry whose value is closest to the target, scanning all indices
with a strict-improvement update (so ties keep the first occurrence).
Mirrors `closest_idx` / `min_abs_diff` of the source. -/
def closestIdx (t : ℚ) (profile : List (α × ℚ)) : ℕ :=
  let diffs := profile.map (fun p => p.2 - t)
  let st := diffs.enum.foldl
    (fun (st : ℕ × ℚ) id =>
      if |id.2| < st.2 then (id.1, |id.2|) else st)
    (0, |diffs.headD 0|)
  st.1

/-- `sorted(list(set(candidates)))` of the source: the ascending list
of the distinct candidates (any correct sort of the distinct elements is
extensionally the same list; we use insertion sort over `dedup`). -/
def uniqueSorted (l : List α) : List α :=
  l.dedup.insertionSort (· ≤ ·)

/-- `find_equivalent_days` of `src/analyzer.py` (lines 81-145). -/
def find_equivalent_days (t : ℚ) (profile : List (α × ℚ)) : List α :=
  match profile with
  | [] => []
  | p :: rest =>
    let prof := p :: rest
    let cs := candidates t prof
    if cs.isEmpty then
      [(prof.getD (closestIdx t prof) p).1]
    else
      match uniqueSorted cs with
      | [] => []
      | x :: xs => if xs.isEmpty then [x] else [x, xs.getLastD x]

/-! ### Snow-year calendar (`get_snow_year_dates`)

`datetime.date` is modelled as a year/month/day record over the proleptic
Gregorian calendar, and `start_date + timedelta(days=i)` as `i`-fold
iteration of the successor-day function. -/

/-- A calendar date, as in Python's `datetime.date`. -/
structure Date where
  year : ℤ
  month : ℕ
  day : ℕ
  deriving DecidableEq

/-- Gregorian leap-year rule (as used by `datetime`). -/
def isLeap (y : ℤ) : Bool :=
  (y % 4 == 0 && y % 100 != 0) || y % 400 == 0

/-- Number of days in a month of a given year (Gregorian). -/
def daysInMonth (y : ℤ) (m : ℕ) : ℕ :=
  if m = 2 then (if isLeap y then 29 else 28)
  else if m = 4 ∨ m = 6 ∨ m = 9 ∨ m = 11 then 30
  else 31

/-- The day after a given date. -/
def nextDay (d : Date) : Date :=
  if d.day < daysInMonth d.year d.month then ⟨d.year, d.month, d.day + 1⟩
  else if d.month < 12 then ⟨d.year, d.month + 1, 1⟩
  else ⟨d.year + 1, 1, 1⟩

/-- `start + timedelta(days=i)`. -/
def addDays (d : Date) (i : ℕ) : Date :=
  nextDay^[i] d

/-- Strict ordering of dates (as Python compares `date` objects). -/
def dateLt (a b : Date) : Prop :=
  a.year < b.year ∨ (a.year = b.year ∧
    (a.month < b.month ∨ (a.month = b.month ∧ a.day < b.day)))

instance (a b : Date) : Decidable (dateLt a b) := by
  unfold dateLt; infer_instance

/-- The `for i in range(366)` loop of `get_snow_year_dates`
(`src/analyzer.py` lines 160-166): `i` is the loop counter, the second
argument the remaining iterations of the bounded range. -/
def buildDates (start : Date) : ℕ → ℕ → List Date
  | _, 0 => []
  | i, fuel + 1 =>
    let d := addDays start i
    if d.month = 10 ∧ d.day = 1 ∧ 0 < i then []
    else d :: buildDates start (i + 1) fuel

/-- `get_snow_year_dates` of `src/analyzer.py` (lines 147-167). -/
def get_snow_year_dates (snow_year_start : ℤ) : List Date :=
  buildDates ⟨snow_year_start - 1, 10, 1⟩ 0 366

/-- Incremental trajectory of `n` successive days from `s`
(equals `(List.range n).map (addDays s)`, but evaluates linearly). -/
def iterTraj (s : Date) : ℕ → List Date
  | 0 => []
  | n + 1 => s :: iterTraj (nextDay s) n

/-- Shift the year of a date. -/
def shiftY (k : ℤ) (d : Date) : Date :=
  ⟨d.year + k, d.month, d.day⟩

/-! ### Profile builders (`calculate_daily_medians` / `calculate_daily_means`)

Historical records are Python dicts with dynamically typed fields; we
model a field's content as `PyVal` (absent / number / string).  The
date strings are parsed as `datetime.strptime(_, "%Y-%m-%d")` does, and
`float(...)` conversion of a value may fail (`ValueError`/`TypeError`
are modelled as `Option.none`; the source catches both and skips the
entry). -/

/-- A dynamically typed field value of a provider record. -/
inductive PyVal where
  | none
  | num (q : ℚ)
  | str (s : String)
  deriving DecidableEq

/-- One historical record: the `"date"` and `"value"` fields of the
dict (`entry.get(...)` yields `PyVal.none` when the field is absent). -/
structure Entry where
  date : PyVal
  value : PyVal
  deriving DecidableEq

/-- Split a character list at every occurrence of `sep`. -/
def splitOnChar (sep : Char) : List Char → List (List Char)
  | [] => [[]]
  | c :: cs =>
    let r := splitOnChar sep cs
    if c = sep then [] :: r
    else
      match r with
      | g :: gs => (c :: g) :: gs
      | [] => [[c]]

/-- Numeric value of a list of decimal digit characters. -/
def digitsToNat (cs : List Char) : ℕ :=
  cs.foldl (fun a c => 10 * a + (c.toNat - 48)) 0

/-- `datetime.strptime(s, "%Y-%m-%d")`: a four-digit year, dash,
one-or-two-digit month, dash, one-or-two-digit day, consuming the whole
string; the components must form a valid calendar date (year at least
1, month 1-12, day within the month), otherwise `ValueError` (here:
`Option.none`). -/
def parseDateString (s : String) : Option (ℕ × ℕ × ℕ) :=
  match splitOnChar '-' s.toList with
  | [ys, ms, ds] =>
    if ys.length = 4 ∧ (ms.length = 1 ∨ ms.length = 2) ∧
        (ds.length = 1 ∨ ds.length = 2) ∧
        (ys ++ ms ++ ds).all Char.isDigit = true then
      let y := digitsToNat ys
      let m := digitsToNat ms
      let d := digitsToNat ds
      if 1 ≤ y ∧ 1 ≤ m ∧ m ≤ 12 ∧ 1 ≤ d ∧ d ≤ daysInMonth (y : ℤ) m then
        some (y, m, d)
      else none
    else none
  | _ => none

/-- `datetime.strptime(d_str, "%Y-%m-%d")` applied to a dynamically
typed field: a non-string raises `TypeError` (caught by the source). -/
def parseDate : PyVal → Option (ℕ × ℕ × ℕ)
  | .str s => parseDateString s
  | _ => Option.none

/-- Python `float(...)` on a string: after stripping spaces, an
optionally signed decimal numeral with at most one point and at least
one digit; anything else raises `ValueError` (here: `Option.none`). -/
def strToRat (s : String) : Option ℚ :=
  let cs := ((s.toList.dropWhile (· = ' ')).reverse.dropWhile (· = ' ')).reverse
  let signBody : ℚ × List Char :=
    match cs with
    | '-' :: rest => (-1, rest)
    | '+' :: rest => (1, rest)
    | _ => (1, cs)
  match splitOnChar '.' signBody.2 with
  | [ip] =>
    if ip ≠ [] ∧ ip.all Char.isDigit = true then
      some (signBody.1 * digitsToNat ip)
    else Option.none
  | [ip, fp] =>
    if ip ++ fp ≠ [] ∧ (ip ++ fp).all Char.isDigit = true then
      some (signBody.1 * (digitsToNat ip + digitsToNat fp / 10 ^ fp.length))
    else Option.none
  | _ => Option.none

/-- Python `float(...)` on a dynamically typed field: numbers convert
to themselves, strings are parsed, anything else raises `TypeError`. -/
def pyFloat : PyVal → Option ℚ
  | .num q => some q
  | .str s => strToRat s
  | .none => Option.none

/-- `dt.strftime("%m-%d")`: zero-padded two-digit month and day. -/
def mmdd (m d : ℕ) : String :=
  ⟨[Nat.digitChar (m / 10), Nat.digitChar (m % 10), '-',
    Nat.digitChar (d / 10), Nat.digitChar (d % 10)]⟩

/-- Key lookup in an insertion-ordered dict modelled as an association
list (`mm_dd not in day_buckets`, `day_buckets[mm_dd]`, and reading the
result maps). -/
def findBucket {β : Type} (buckets : List (String × β)) (k : String) :
    Option β :=
  match buckets with
  | [] => Option.none
  | (k', vs) :: bs => if k' = k then some vs else findBucket bs k

/-- `day_buckets[mm_dd].append(v)` for a key already present. -/
def appendToBucket (buckets : List (String × List ℚ)) (k : String) (v : ℚ) :
    List (String × List ℚ) :=
  match buckets with
  | [] => []
  | (k', vs) :: bs =>
    if k' = k then (k', vs ++ [v]) :: bs else (k', vs) :: appendToBucket bs k v

/-- One iteration of the bucket-building loop that appears verbatim in
both `calculate_daily_medians` and `calculate_daily_means`
(`src/analyzer.py` lines 25-39 and 58-72).  Note the source first
creates a (possibly empty) bucket for the day key and only then
evaluates `float(val)`; if the conversion raises, the freshly created
empty bucket stays behind. -/
def processEntry (buckets : List (String × List ℚ)) (e : Entry) :
    List (String × List ℚ) :=
  if e.date = PyVal.none ∨ e.value = PyVal.none then buckets
  else
    match parseDate e.date with
    | Option.none => buckets
    | some ymd =>
      let key := mmdd ymd.2.1 ymd.2.2
      let buckets1 :=
        if (findBucket buckets key).isSome then buckets
        else buckets ++ [(key, [])]
      match pyFloat e.value with
      | Option.none => buckets1
      | some v => appendToBucket buckets1 key v

/-- The `day_buckets` dict after the bucket-building loop, as an
insertion-ordered association list. -/
def dayBuckets (historical_data : List Entry) : List (String × List ℚ) :=
  historical_data.foldl processEntry []

/-- `statistics.median`: sort the data, take the middle element for an
odd count, the mean of the two middle elements for an even count.
(Python raises on empty data; the source only applies it to non-empty
buckets, and the default 0 is never read.) -/
def median (l : List ℚ) : ℚ :=
  let s := l.insertionSort (· ≤ ·)
  let n := s.length
  if n % 2 = 1 then s.getD (n / 2) 0
  else (s.getD (n / 2 - 1) 0 + s.getD (n / 2) 0) / 2

/-- `statistics.mean`: arithmetic mean. -/
def mean (l : List ℚ) : ℚ :=
  l.sum / l.length

/-- `calculate_daily_medians` of `src/analyzer.py` (lines 15-46):
bucket the valid observations by month-day key, then map each
non-empty bucket to its median (the `if vals:` guard drops the empty
buckets left behind by failed `float` conversions). -/
def calculate_daily_medians (historical_data : List Entry) :
    List (String × ℚ) :=
  (dayBuckets historical_data).filterMap fun kv =>
    if kv.2.isEmpty then Option.none else some (kv.1, median kv.2)

/-- `calculate_daily_means` of `src/analyzer.py` (lines 48-79): same
bucket-building loop, arithmetic mean per non-empty bucket. -/
def calculate_daily_means (historical_data : List Entry) :
    List (String × ℚ) :=
  (dayBuckets historical_data).filterMap fun kv =>
    if kv.2.isEmpty then Option.none else some (kv.1, mean kv.2)

/-- An entry survives the bucket-building loop's error handling iff
both fields are present, the date parses, and the value converts. -/
def validEntry (e : Entry) : Bool :=
  e.date != PyVal.none && e.value != PyVal.none &&
    (parseDate e.date).isSome && (pyFloat e.value).isSome

/-- Proof-support invariant: the bucket dicts of a run on the full
input and of a run on its valid portion agree on every key, except
that the full run may own extra empty buckets (left behind by entries
whose value failed to convert after the bucket was created). -/
def bucketsRel (A B : List (String × List ℚ)) : Prop :=
  ∀ k, findBucket A k = findBucket B k ∨
    (findBucket A k = some [] ∧ findBucket B k = Option.none)

/-- The worked observation set of the spec: day buckets
`{01-01:[10,12,11], 01-02:[15,17]}`. -/
def exampleObservations : List Entry :=
  [⟨.str "2020-01-01", .num 10⟩, ⟨.str "2021-01-01", .num 12⟩,
   ⟨.str "2022-01-01", .num 11⟩, ⟨.str "2020-01-02", .num 15⟩,
   ⟨.str "2021-01-02", .num 17⟩]

/-- The malformed observation set of the spec: an unparsable date and a
non-numeric value. -/
def malformedObservations : List Entry :=
  [⟨.str "invalid", .num 10⟩, ⟨.str "2020-01-01", .str "x"⟩]

end SnowAnalyzer

section SolverScratch

open SnowAnalyzer

-- triangle profile, target 5
example :
    find_equivalent_days 5 [((1 : ℕ), (0 : ℚ)), (2, 5), (3, 10), (4, 5), (5, 0)]
      = [2, 4] := by decide

-- M-shape profile, target 5
example :
    find_equivalent_days 5 [((1 : ℕ), (0 : ℚ)), (2, 10), (3, 2), (4, 10), (5, 0)]
      = [2, 5] := by decide

-- all-above profile, target 5
example :
    find_equivalent_days 5 [((1 : ℕ), (10 : ℚ)), (2, 20)] = [1] := by decide

-- singleton profiles
example : find_equivalent_days 5 [((7 : ℕ), (5 : ℚ))] = [7] := by decide
example : find_equivalent_days 5 [((7 : ℕ), (9 : ℚ))] = [7] := by decide

end SolverScratch

section CalendarScratch

open SnowAnalyzer

example : iterTraj ⟨2023, 10, 1⟩ 3 = [⟨2023,10,1⟩, ⟨2023,10,2⟩, ⟨2023,10,3⟩] := by decide
example : addDays ⟨2023, 12, 30⟩ 2 = ⟨2024, 1, 1⟩ := by decide
set_option maxRecDepth 10000 in
example : (iterTraj (⟨2023, 10, 1⟩ : Date) 200).getLast? = some ⟨2024, 4, 17⟩ := by decide

end CalendarScratch

section StatsScratch

open SnowAnalyzer

example : parseDateString "2020-01-01" = some (2020, 1, 1) := by decide
example : parseDateString "invalid" = Option.none := by decide
example : parseDateString "2021-02-30" = Option.none := by decide
example : strToRat "x" = Option.none := by decide
example : strToRat "12.5" = some (25 / 2) := by decide

-- the worked example from the spec / demo block
example :
    calculate_daily_medians
      [⟨.str "2020-01-01", .num 10⟩, ⟨.str "2021-01-01", .num 12⟩,
       ⟨.str "2022-01-01", .num 11⟩, ⟨.str "2020-01-02", .num 15⟩,
       ⟨.str "2021-01-02", .num 17⟩]
      = [("01-01", 11), ("01-02", 16)] := by decide

example :
    calculate_daily_means
      [⟨.str "2020-01-01", .num 10⟩, ⟨.str "2021-01-01", .num 12⟩,
       ⟨.str "2022-01-01", .num 11⟩, ⟨.str "2020-01-02", .num 15⟩,
       ⟨.str "2021-01-02", .num 17⟩]
      = [("01-01", 11), ("01-02", 16)] := by decide

example :
    calculate_daily_medians [⟨.str "invalid", .num 10⟩, ⟨.str "2020-01-01", .str "x"⟩]
      = [] := by decide

end StatsScratch

namespace SnowAnalyzer

/-! ### Lemmas about the equivalence solver -/

variable {α : Type} [LinearOrder α]

theorem uniqueSorted_sorted (l : List α) :
    (uniqueSorted l).Sorted (· ≤ ·) :=
  List.sorted_insertionSort _ _

theorem uniqueSorted_nodup (l : List α) : (uniqueSorted l).Nodup :=
  ((List.perm_insertionSort _ _).nodup_iff).mpr (List.nodup_dedup l)

theorem mem_uniqueSorted {l : List α} {x : α} :
    x ∈ uniqueSorted l ↔ x ∈ l := by
  unfold uniqueSorted
  rw [List.mem_insertionSort, List.mem_dedup]

theorem uniqueSorted_ne_nil {l : List α} (h : l ≠ []) :
    uniqueSorted l ≠ [] := by
  obtain ⟨x, hx⟩ := List.exists_mem_of_ne_nil l h
  intro hu
  exact (List.not_mem_nil x) (hu ▸ mem_uniqueSorted.mpr hx)

theorem sorted_cons_le {x : α} {xs : List α} (h : (x :: xs).Sorted (· ≤ ·))
    {a : α} (ha : a ∈ x :: xs) : x ≤ a := by
  rcases List.mem_cons.mp ha with rfl | ha'
  · exact le_refl a
  · exact List.rel_of_sorted_cons h a ha'

theorem sorted_le_getLastD {x : α} {xs : List α}
    (h : (x :: xs).Sorted (· ≤ ·)) {a : α} (ha : a ∈ x :: xs) :
    a ≤ xs.getLastD x := by
  induction xs generalizing x with
  | nil => simp at ha; simp [ha]
  | cons y ys ih =>
    have h' : (y :: ys).Sorted (· ≤ ·) := h.of_cons
    have hlast : (y :: ys).getLastD x = ys.getLastD y := by
      cases ys with
      | nil => simp
      | cons z zs =>
        simp only [List.getLastD_eq_getLast?, List.getLast?_cons_cons]
        rw [List.getLast?_eq_getLast (z :: zs) (by simp)]
        simp
    rw [hlast]
    rcases List.mem_cons.mp ha with rfl | ha'
    · exact le_trans (List.rel_of_sorted_cons h y (by simp))
        (sorted_cons_le h' (List.getLastD_mem_cons ys y))
    · exact ih h' ha'

/-- When at least one candidate is recorded, `find_equivalent_days`
returns the least candidate, followed by the greatest candidate when it
differs. -/
theorem find_eq_min_max (t : ℚ) (profile : List (α × ℚ)) (m M : α)
    (hm : m ∈ candidates t profile)
    (hmle : ∀ x ∈ candidates t profile, m ≤ x)
    (hM : M ∈ candidates t profile)
    (hMge : ∀ x ∈ candidates t profile, x ≤ M) :
    find_equivalent_days t profile = if m = M then [m] else [m, M] := by
  obtain ⟨p, rest, rfl⟩ : ∃ p rest, profile = p :: rest := by
    cases profile with
    | nil => simp [candidates, candidatesLoop, lastCandidate] at hm
    | cons p rest => exact ⟨p, rest, rfl⟩
  have hcsne : candidates t (p :: rest) ≠ [] := fun h => by
    rw [h] at hm; exact (List.not_mem_nil m) hm
  have hu : uniqueSorted (candidates t (p :: rest)) ≠ [] :=
    uniqueSorted_ne_nil hcsne
  obtain ⟨x, xs, hx⟩ := List.exists_cons_of_ne_nil hu
  have hsorted := uniqueSorted_sorted (candidates t (p :: rest))
  have hnodup := uniqueSorted_nodup (candidates t (p :: rest))
  rw [hx] at hsorted hnodup
  have hmemu : ∀ a : α, a ∈ x :: xs ↔ a ∈ candidates t (p :: rest) := by
    intro a; rw [← hx]; exact mem_uniqueSorted
  have hxm : x = m := by
    refine le_antisymm ?_ (hmle x ((hmemu x).mp (by simp)))
    exact sorted_cons_le hsorted ((hmemu m).mpr hm)
  have hlM : xs.getLastD x = M := by
    refine le_antisymm (hMge _ ((hmemu _).mp (List.getLastD_mem_cons xs x))) ?_
    exact sorted_le_getLastD hsorted ((hmemu M).mpr hM)
  have hfind : find_equivalent_days t (p :: rest) =
      if xs.isEmpty then [x] else [x, xs.getLastD x] := by
    simp only [find_equivalent_days]
    rw [List.isEmpty_eq_false.mpr hcsne]
    simp only [Bool.false_eq_true, if_false, hx]
  cases xs with
  | nil =>
    have hMm : m = M := by rw [← hxm, ← hlM]; rfl
    rw [hfind]
    rw [if_pos (by simp : ([] : List α).isEmpty = true)]
    rw [hxm, if_pos hMm]
  | cons y ys =>
    have hym : y ∈ candidates t (p :: rest) := (hmemu y).mp (by simp)
    have hne : m ≠ M := by
      intro hmM
      have h1 : y = m := le_antisymm (hmM ▸ hMge y hym) (hmle y hym)
      have h2 : x = y := by rw [hxm, h1]
      exact hnodup.not_mem (h2 ▸ List.mem_cons_self y ys)
    rw [hfind]
    rw [if_neg (by simp : ¬((y :: ys).isEmpty = true))]
    rw [hlM, hxm, if_neg hne]

/-- On a non-empty profile the result of `find_equivalent_days` is a
non-empty list of at most two dates. -/
theorem find_cons_shape (t : ℚ) (p : α × ℚ) (rest : List (α × ℚ)) :
    ∃ a l, find_equivalent_days t (p :: rest) = a :: l ∧ l.length ≤ 1 := by
  simp only [find_equivalent_days]
  by_cases hcs : candidates t (p :: rest) = []
  · rw [hcs]
    exact ⟨_, [], rfl, by simp⟩
  · rw [List.isEmpty_eq_false.mpr hcs]
    obtain ⟨x, xs, hx⟩ := List.exists_cons_of_ne_nil (uniqueSorted_ne_nil hcs)
    rw [hx]
    cases xs with
    | nil => exact ⟨x, [], by simp, by simp⟩
    | cons y ys => exact ⟨x, [(y :: ys).getLastD x], by simp, by simp⟩

/-- C1: for every target value and every non-empty ascending profile
for which at least one candidate is recorded, `find_equivalent_days`
returns the deduplicated candidates collapsed to exactly the earliest
candidate date and, only if it differs, the latest candidate date, in
ascending order, so the result length is 1 or 2 and never more (the
M-shape profile of the claim is the witness instance). -/
theorem C1_collapse_first_last (t : ℚ) (profile : List (α × ℚ)) (m M : α)
    (hasc : profile.Chain' fun a b => a.1 < b.1)
    (hm : m ∈ candidates t profile)
    (hmle : ∀ x ∈ candidates t profile, m ≤ x)
    (hM : M ∈ candidates t profile)
    (hMge : ∀ x ∈ candidates t profile, x ≤ M) :
    find_equivalent_days t profile = (if m = M then [m] else [m, M]) ∧
      1 ≤ (find_equivalent_days t profile).length ∧
      (find_equivalent_days t profile).length ≤ 2 := by
  have h := find_eq_min_max t profile m M hm hmle hM hMge
  refine ⟨h, ?_, ?_⟩ <;> rw [h] <;> split <;> simp

/-- Witness for C1: the oscillating M-shape profile
`[(d1,0),(d2,10),(d3,2),(d4,10),(d5,0)]` with target `5.0` yields
exactly `[d2, d5]`. -/
theorem C1_witness :
    find_equivalent_days 5
      [((1 : ℕ), (0 : ℚ)), (2, 10), (3, 2), (4, 10), (5, 0)] = [2, 5] := by
  have h := (C1_collapse_first_last 5
    [((1 : ℕ), (0 : ℚ)), (2, 10), (3, 2), (4, 10), (5, 0)] 2 5
    (by simp [List.chain'_cons]) (by decide) (by decide) (by decide) (by decide)).1
  rw [h, if_neg (by decide)]

/-- C5: `find_equivalent_days` always returns an ordered sequence of
0, 1, or 2 dates, and it returns the empty sequence precisely when the
input profile is empty (the embedding is a total function: no input
raises). -/
theorem C5_output_shape (t : ℚ) (profile : List (α × ℚ)) :
    (find_equivalent_days t profile).length ≤ 2 ∧
      (find_equivalent_days t profile = [] ↔ profile = []) := by
  cases profile with
  | nil => exact ⟨by simp [find_equivalent_days], by simp [find_equivalent_days]⟩
  | cons p rest =>
    obtain ⟨a, l, hfind, hlen⟩ := find_cons_shape t p rest
    rw [hfind]
    refine ⟨by simpa using Nat.succ_le_succ hlen, by simp⟩

/-- The candidates recorded for adjacent pair `i` of the loop are among
the candidates of the whole loop. -/
theorem pairStep_mem_candidatesLoop (t : ℚ) (profile : List (α × ℚ))
    (i : ℕ) (hi : i + 1 < profile.length) (a : α)
    (ha : a ∈ pairStep t profile[i] profile[i + 1]) :
    a ∈ candidatesLoop t profile := by
  induction profile generalizing i with
  | nil => simp at hi
  | cons p rest ih =>
    cases rest with
    | nil => simp at hi
    | cons q rest' =>
      cases i with
      | zero =>
        simp only [candidatesLoop]
        exact List.mem_append_left _ (by simpa using ha)
      | succ j =>
        simp only [candidatesLoop]
        refine List.mem_append_right _ (ih j ?_ ?_)
        · simpa [Nat.succ_lt_succ_iff] using hi
        · simpa using ha

/-- C2: for every adjacent profile pair whose differences from the
target have strictly opposite signs, the endpoint with the strictly
smaller absolute difference is recorded as the candidate, and on an
exact tie of absolute differences the later date `profile[i+1].1` is
selected. -/
theorem C2_crossing_pick (t : ℚ) (profile : List (α × ℚ)) (i : ℕ)
    (hi : i + 1 < profile.length)
    (hsign : (0 < profile[i].2 - t ∧ profile[i + 1].2 - t < 0) ∨
             (profile[i].2 - t < 0 ∧ 0 < profile[i + 1].2 - t)) :
    (if |profile[i].2 - t| < |profile[i + 1].2 - t|
       then profile[i].1 else profile[i + 1].1) ∈ candidatesLoop t profile ∧
    (|profile[i].2 - t| = |profile[i + 1].2 - t| →
       profile[i + 1].1 ∈ candidatesLoop t profile) := by
  have hne : profile[i].2 - t ≠ 0 := by
    rcases hsign with ⟨h1, _⟩ | ⟨h1, _⟩
    · exact ne_of_gt h1
    · exact ne_of_lt h1
  have hps : pairStep t profile[i] profile[i + 1] =
      if |profile[i].2 - t| < |profile[i + 1].2 - t|
        then [profile[i].1] else [profile[i + 1].1] := by
    simp only [pairStep]
    rw [if_neg hne, if_pos hsign]
  constructor
  · apply pairStep_mem_candidatesLoop t profile i hi
    rw [hps]
    split <;> simp
  · intro htie
    apply pairStep_mem_candidatesLoop t profile i hi
    rw [hps, if_neg (by rw [htie]; exact lt_irrefl _)]
    simp

/-- Witness for C2: profile `[(d1,0),(d2,10)]`, target `5.0`: the
crossing is an exact tie of absolute differences (5 on both sides) and
the later date `d2` is recorded. -/
theorem C2_witness :
    (2 : ℕ) ∈ candidatesLoop 5 [((1 : ℕ), (0 : ℚ)), (2, 10)] :=
  (C2_crossing_pick 5 [((1 : ℕ), (0 : ℚ)), (2, 10)] 0 (by decide)
    (by decide)).2 (by decide)

/-- C3: every profile entry whose value equals the target is recorded
as a candidate: each entry except the last via the per-pair exact-match
rule, and the final entry via the separate independent check. -/
theorem C3_exact_matches (t : ℚ) (profile : List (α × ℚ)) (i : ℕ)
    (hi : i < profile.length) (hexact : profile[i].2 = t) :
    (i + 1 < profile.length → profile[i].1 ∈ candidatesLoop t profile) ∧
    (i + 1 = profile.length → profile[i].1 ∈ lastCandidate t profile) := by
  constructor
  · intro hi1
    apply pairStep_mem_candidatesLoop t profile i hi1
    simp only [pairStep]
    rw [if_pos (by rw [hexact]; exact sub_self t)]
    simp
  · intro hlast
    have hgl : profile.getLast? = some profile[i] := by
      rw [List.getLast?_eq_getElem?]
      have : profile.length - 1 = i := by omega
      rw [this, List.getElem?_eq_getElem hi]
    simp only [lastCandidate, hgl]
    have h0 : (profile.get ⟨i, hi⟩).2 - t = 0 := by
      show profile[i].2 - t = 0
      rw [hexact]; exact sub_self t
    rw [if_pos h0]
    simp

/-- Witness for C3: the triangle profile
`[(d1,0),(d2,5),(d3,10),(d4,5),(d5,0)]` with target `5.0`: the interior
exact match `d2` is recorded by the per-pair rule, and the full result
is exactly `[d2, d4]`. -/
theorem C3_witness :
    (2 : ℕ) ∈ candidatesLoop 5
        [((1 : ℕ), (0 : ℚ)), (2, 5), (3, 10), (4, 5), (5, 0)] ∧
    find_equivalent_days 5
        [((1 : ℕ), (0 : ℚ)), (2, 5), (3, 10), (4, 5), (5, 0)] = [2, 4] :=
  ⟨(C3_exact_matches 5 [((1 : ℕ), (0 : ℚ)), (2, 5), (3, 10), (4, 5), (5, 0)]
      1 (by decide) (by decide)).1 (by decide),
   by decide⟩

/-- If no entry equals the target and no adjacent pair changes sign,
the pair loop records no candidate. -/
theorem candidatesLoop_eq_nil (t : ℚ) (profile : List (α × ℚ))
    (hno0 : ∀ i (hi : i < profile.length), profile[i].2 ≠ t)
    (hnosign : ∀ i (hi : i + 1 < profile.length),
      ¬((0 < profile[i].2 - t ∧ profile[i + 1].2 - t < 0) ∨
        (profile[i].2 - t < 0 ∧ 0 < profile[i + 1].2 - t))) :
    candidatesLoop t profile = [] := by
  induction profile with
  | nil => rfl
  | cons p rest ih =>
    cases rest with
    | nil => rfl
    | cons q rest' =>
      have hp0 : pairStep t p q = [] := by
        have h0 : p.2 ≠ t := hno0 0 (by simp)
        have h1 : ¬(0 < p.2 - t ∧ q.2 - t < 0 ∨ (p.2 - t < 0 ∧ 0 < q.2 - t)) :=
          hnosign 0 (by simp)
        simp only [pairStep]
        rw [if_neg (sub_ne_zero.mpr h0)]
        rw [if_neg h1]
      simp only [candidatesLoop, hp0, List.nil_append]
      exact ih
        (fun i hi => hno0 (i + 1)
          (by simp only [List.length_cons] at hi ⊢; omega))
        (fun i hi => hnosign (i + 1)
          (by simp only [List.length_cons] at hi ⊢; omega))

/-- If no entry equals the target, the final-entry check records no
candidate. -/
theorem lastCandidate_eq_nil (t : ℚ) (profile : List (α × ℚ))
    (hno0 : ∀ i (hi : i < profile.length), profile[i].2 ≠ t) :
    lastCandidate t profile = [] := by
  unfold lastCandidate
  cases hgl : profile.getLast? with
  | none => rfl
  | some pv =>
    obtain ⟨d, v⟩ := pv
    rw [List.getLast?_eq_getElem?] at hgl
    obtain ⟨hlt, hv⟩ := List.getElem?_eq_some.mp hgl
    have hvt : v ≠ t := by
      have := hno0 (profile.length - 1) hlt
      rw [hv] at this
      exact this
    show (if v - t = 0 then [d] else []) = []
    rw [if_neg (sub_ne_zero.mpr hvt)]

/-- Specification of the fallback scan: the fold either keeps the
accumulator (everything is at least as far as it) or returns the
first-occurrence minimiser strictly below it. -/
theorem foldl_argmin (ds : List ℚ) :
    ∀ (n : ℕ) (acc : ℕ × ℚ),
    ((ds.enumFrom n).foldl
        (fun (st : ℕ × ℚ) id =>
          if |id.2| < st.2 then (id.1, |id.2|) else st) acc = acc ∧
      ∀ j (hj : j < ds.length), acc.2 ≤ |ds[j]|) ∨
    (∃ j, ∃ (hj : j < ds.length),
      (ds.enumFrom n).foldl
        (fun (st : ℕ × ℚ) id =>
          if |id.2| < st.2 then (id.1, |id.2|) else st) acc
        = (n + j, |ds[j]|) ∧
      |ds[j]| < acc.2 ∧
      (∀ k (hk : k < ds.length), |ds[j]| ≤ |ds[k]|) ∧
      (∀ k (hk : k < j), |ds[j]| < |ds[k]|)) := by
  induction ds with
  | nil =>
    intro n acc
    left
    exact ⟨rfl, fun j hj => by simp at hj⟩
  | cons d ds' ih =>
    intro n acc
    rw [List.enumFrom_cons, List.foldl_cons]
    by_cases hd : |d| < acc.2
    · rw [if_pos hd]
      rcases ih (n + 1) (n, |d|) with ⟨heq, hall⟩ | ⟨j, hj, heq, hlt, hmin, hfirst⟩
      · right
        refine ⟨0, by simp, ?_, by simpa using hd, ?_, ?_⟩
        · rw [heq]; simp
        · intro k hk
          cases k with
          | zero => simp
          | succ k' =>
            have := hall k' (by simpa [Nat.succ_lt_succ_iff] using hk)
            simpa using this
        · intro k hk; omega
      · right
        refine ⟨j + 1, by simpa [Nat.succ_lt_succ_iff] using hj, ?_,
          lt_trans (by simpa using hlt) hd, ?_, ?_⟩
        · rw [heq]
          have : n + 1 + j = n + (j + 1) := by omega
          rw [this]
          simp
        · intro k hk
          cases k with
          | zero => simpa using le_of_lt (show |ds'[j]| < |d| by simpa using hlt)
          | succ k' =>
            have := hmin k' (by simpa [Nat.succ_lt_succ_iff] using hk)
            simpa using this
        · intro k hk
          cases k with
          | zero => simpa using (show |ds'[j]| < |d| by simpa using hlt)
          | succ k' =>
            have := hfirst k' (by omega)
            simpa using this
    · rw [if_neg hd]
      rcases ih (n + 1) acc with ⟨heq, hall⟩ | ⟨j, hj, heq, hlt, hmin, hfirst⟩
      · left
        refine ⟨heq, ?_⟩
        intro j hj
        cases j with
        | zero => simpa using not_lt.mp hd
        | succ j' =>
          have := hall j' (by simpa [Nat.succ_lt_succ_iff] using hj)
          simpa using this
      · right
        refine ⟨j + 1, by simpa [Nat.succ_lt_succ_iff] using hj, ?_, by simpa using hlt, ?_, ?_⟩
        · rw [heq]
          have : n + 1 + j = n + (j + 1) := by omega
          rw [this]
          simp
        · intro k hk
          cases k with
          | zero =>
            have h1 : |ds'[j]| < acc.2 := by simpa using hlt
            simpa using le_of_lt (lt_of_lt_of_le h1 (not_lt.mp hd))
          | succ k' =>
            have := hmin k' (by simpa [Nat.succ_lt_succ_iff] using hk)
            simpa using this
        · intro k hk
          cases k with
          | zero =>
            have h1 : |ds'[j]| < acc.2 := by simpa using hlt
            simpa using lt_of_lt_of_le h1 (not_lt.mp hd)
          | succ k' =>
            have := hfirst k' (by omega)
            simpa using this

/-- C4: for every target and non-empty profile in which no entry
equals the target and no adjacent pair has strictly opposite-signed
differences, `find_equivalent_days` returns exactly one date: the entry
minimising the absolute difference from the target, ties broken by the
first occurrence in profile order. -/
theorem C4_fallback_closest (t : ℚ) (profile : List (α × ℚ))
    (hne : profile ≠ [])
    (hno0 : ∀ i (hi : i < profile.length), profile[i].2 ≠ t)
    (hnosign : ∀ i (hi : i + 1 < profile.length),
      ¬((0 < profile[i].2 - t ∧ profile[i + 1].2 - t < 0) ∨
        (profile[i].2 - t < 0 ∧ 0 < profile[i + 1].2 - t))) :
    ∃ j, ∃ (hj : j < profile.length),
      find_equivalent_days t profile = [profile[j].1] ∧
      (∀ k (hk : k < profile.length),
        |profile[j].2 - t| ≤ |profile[k].2 - t|) ∧
      (∀ k (hk : k < j), |profile[j].2 - t| < |profile[k].2 - t|) := by
  obtain ⟨p, rest, rfl⟩ := List.exists_cons_of_ne_nil hne
  have hcs : candidates t (p :: rest) = [] := by
    unfold candidates
    rw [candidatesLoop_eq_nil t _ hno0 hnosign, lastCandidate_eq_nil t _ hno0]
    rfl
  have hfind : find_equivalent_days t (p :: rest) =
      [((p :: rest).getD (closestIdx t (p :: rest)) p).1] := by
    simp only [find_equivalent_days, candidates] at hcs ⊢
    rw [hcs]
    rfl
  have hdslen : ((p :: rest).map fun pr => pr.2 - t).length =
      (p :: rest).length := List.length_map _ _
  have hdsget : ∀ k (hk : k < (p :: rest).length),
      ((p :: rest).map fun pr => pr.2 - t)[k] = (p :: rest)[k].2 - t := by
    intro k hk
    simp only [List.getElem_map]
  have hidx : closestIdx t (p :: rest) =
      ((((p :: rest).map fun pr => pr.2 - t).enumFrom 0).foldl
        (fun (st : ℕ × ℚ) id =>
          if |id.2| < st.2 then (id.1, |id.2|) else st)
        (0, |(((p :: rest).map fun pr => pr.2 - t)).headD 0|)).1 := rfl
  rcases foldl_argmin ((p :: rest).map fun pr => pr.2 - t) 0
      (0, |(((p :: rest).map fun pr => pr.2 - t)).headD 0|) with
    ⟨heq, hall⟩ | ⟨j, hj, heq, hlt, hmin, hfirst⟩
  · refine ⟨0, by simp, ?_, ?_, ?_⟩
    · rw [hfind, hidx, heq]
      rfl
    · intro k hk
      have := hall k (by rw [hdslen]; exact hk)
      rw [hdsget k hk] at this
      have hhead : (((p :: rest).map fun pr => pr.2 - t)).headD 0 =
          p.2 - t := rfl
      rw [hhead] at this
      exact this
    · intro k hk; omega
  · have hjp : j < (p :: rest).length := by rwa [hdslen] at hj
    refine ⟨j, hjp, ?_, ?_, ?_⟩
    · rw [hfind, hidx, heq]
      have : (p :: rest).getD j p = (p :: rest)[j] := by
        rw [List.getD_eq_getElem?_getD, List.getElem?_eq_getElem hjp]
        rfl
      simp only [Nat.zero_add]
      rw [this]
    · intro k hk
      have := hmin k (by rw [hdslen]; exact hk)
      rw [hdsget k hk, hdsget j hjp] at this
      exact this
    · intro k hk
      have hkp : k < (p :: rest).length := lt_trans hk hjp
      have := hfirst k hk
      rw [hdsget k hkp, hdsget j hjp] at this
      exact this

/-- Witness for C4: profile `[(d1,10),(d2,20)]` entirely above target
`5.0` falls back to the single closest point `[d1]`. -/
theorem C4_witness :
    find_equivalent_days 5 [((1 : ℕ), (10 : ℚ)), (2, 20)] = [1] := by
  obtain ⟨j, hj, hfind, hmin, hfirst⟩ :=
    C4_fallback_closest 5 [((1 : ℕ), (10 : ℚ)), (2, 20)]
      (by decide) (by decide)
      (by
        intro i hi
        have h0 : i = 0 := by
          simp only [List.length_cons, List.length_nil] at hi
          omega
        subst h0
        simp only [List.getElem_cons_zero, List.getElem_cons_succ]
        norm_num)
  have hj2 : j < 2 := by simpa using hj
  interval_cases j
  · exact hfind
  · exfalso
    have := hfirst 0 (by omega)
    simp at this
    norm_num at this

/-- C9: on a singleton profile `[(d, v)]` the result is exactly `[d]`:
the adjacent-pair loop is empty, and `d` is produced either by the
final exact-match check (when `v` equals the target) or by the
closest-point fallback (otherwise). -/
theorem C9_singleton (t : ℚ) (d : α) (v : ℚ) :
    find_equivalent_days t [(d, v)] = [d] := by
  by_cases hv : v - t = 0
  · simp only [find_equivalent_days, candidates, candidatesLoop, lastCandidate]
    simp [hv, uniqueSorted]
  · simp only [find_equivalent_days, candidates, candidatesLoop, lastCandidate]
    simp [hv, closestIdx]

/-! ### Lemmas about the snow-year calendar -/

theorem iterTraj_length (n : ℕ) : ∀ s : Date, (iterTraj s n).length = n := by
  induction n with
  | zero => intro s; rfl
  | succ n ih => intro s; simp [iterTraj, ih]

theorem iterTraj_eq_map_range (n : ℕ) :
    ∀ s : Date, iterTraj s n = (List.range n).map (addDays s) := by
  induction n with
  | zero => intro s; rfl
  | succ n ih =>
    intro s
    rw [List.range_succ_eq_map, List.map_cons, List.map_map]
    show s :: iterTraj (nextDay s) n =
      addDays s 0 :: (List.range n).map (addDays s ∘ Nat.succ)
    congr 1
    rw [ih (nextDay s)]
    apply List.map_congr_left
    intro j _
    show addDays (nextDay s) j = addDays s (j + 1)
    exact (Function.iterate_succ_apply nextDay j s).symm

theorem iterTraj_append (m : ℕ) :
    ∀ (n : ℕ) (s : Date),
      iterTraj s (n + m) = iterTraj s n ++ iterTraj (addDays s n) m := by
  intro n
  induction n with
  | zero => intro s; rw [Nat.zero_add]; rfl
  | succ n ih =>
    intro s
    have h1 : n + 1 + m = (n + m) + 1 := by omega
    rw [h1]
    simp only [iterTraj, List.cons_append]
    rw [ih (nextDay s)]
    have h2 : addDays (nextDay s) n = addDays s (n + 1) :=
      (Function.iterate_succ_apply nextDay n s).symm
    rw [h2]

theorem daysInMonth_shift (y k : ℤ) (m : ℕ)
    (h : m = 2 → isLeap (y + k) = isLeap y) :
    daysInMonth (y + k) m = daysInMonth y m := by
  by_cases h2 : m = 2
  · simp [daysInMonth, h2, h h2]
  · simp [daysInMonth, h2]

theorem nextDay_shiftY (k : ℤ) (d : Date)
    (h : d.month = 2 → isLeap (d.year + k) = isLeap d.year) :
    nextDay (shiftY k d) = shiftY k (nextDay d) := by
  have hdim : daysInMonth (d.year + k) d.month = daysInMonth d.year d.month :=
    daysInMonth_shift d.year k d.month h
  simp only [nextDay, shiftY, hdim]
  by_cases h1 : d.day < daysInMonth d.year d.month
  · simp [h1]
  · by_cases hm : d.month < 12
    · simp [h1, hm]
    · simp [h1, hm]
      omega

theorem addDays_shiftY (k : ℤ) (s : Date) :
    ∀ n : ℕ,
      (∀ j, j < n → ((addDays s j).month = 2 →
        isLeap ((addDays s j).year + k) = isLeap (addDays s j).year)) →
      addDays (shiftY k s) n = shiftY k (addDays s n) := by
  intro n
  induction n with
  | zero => intro _; rfl
  | succ n ih =>
    intro h
    have h1 : addDays (shiftY k s) (n + 1) =
        nextDay (addDays (shiftY k s) n) :=
      Function.iterate_succ_apply' nextDay n (shiftY k s)
    have h2 : addDays s (n + 1) = nextDay (addDays s n) :=
      Function.iterate_succ_apply' nextDay n s
    rw [h1, ih (fun j hj => h j (by omega)), h2]
    exact nextDay_shiftY k (addDays s n) (h n (by omega))

theorem dateLt_nextDay (d : Date) : dateLt d (nextDay d) := by
  unfold nextDay dateLt
  by_cases h1 : d.day < daysInMonth d.year d.month
  · simp [h1]
  · by_cases hm : d.month < 12
    · simp [h1, hm]
    · simp [h1, hm]

/-- If the break condition does not fire before step `n`, and fires at
step `n` (unless the fuel runs out first), the loop emits exactly the
days `i, i+1, ..., n-1`. -/
theorem buildDates_no_break (s : Date) (n : ℕ) :
    ∀ (fuel i : ℕ), i ≤ n → n ≤ i + fuel →
    (∀ j, i ≤ j → j < n →
      ¬((addDays s j).month = 10 ∧ (addDays s j).day = 1 ∧ 0 < j)) →
    (n < i + fuel →
      ((addDays s n).month = 10 ∧ (addDays s n).day = 1 ∧ 0 < n)) →
    buildDates s i fuel = (List.range' i (n - i)).map (addDays s) := by
  intro fuel
  induction fuel with
  | zero =>
    intro i hi hn _ _
    have hin : n = i := by omega
    simp [buildDates, hin]
  | succ fuel ih =>
    intro i hi hn hnb hbrk
    rcases eq_or_lt_of_le hi with heq | hlt
    · have hb := hbrk (by omega)
      rw [← heq] at hb
      simp only [buildDates]
      rw [if_pos hb]
      rw [← heq]
      simp
    · have hnb0 : ¬((addDays s i).month = 10 ∧ (addDays s i).day = 1 ∧ 0 < i) :=
        hnb i le_rfl hlt
      simp only [buildDates]
      rw [if_neg hnb0]
      rw [ih (i + 1) (by omega) (by omega)
        (fun j hj1 hj2 => hnb j (by omega) hj2)
        (fun h => hbrk (by omega))]
      have hsplit : n - i = (n - (i + 1)) + 1 := by omega
      rw [hsplit, List.range'_succ]
      simp

theorem all_iterTraj_iff (p : Date → Bool) (s : Date) (n : ℕ) :
    (iterTraj s n).all p = true ↔ ∀ j (hj : j < n), p (addDays s j) = true := by
  rw [iterTraj_eq_map_range, List.all_eq_true]
  constructor
  · intro h j hj
    exact h _ (List.mem_map_of_mem _ (List.mem_range.mpr hj))
  · intro h x hx
    obtain ⟨j, hj, rfl⟩ := List.mem_map.mp hx
    exact h j (List.mem_range.mp hj)

/-! Concrete trajectory facts for the two representative start years
2023 (season 2024, a leap year) and 2022 (season 2023, a common year);
the 365-step evaluations are split in halves so that kernel reduction
stays shallow. -/

set_option maxRecDepth 20000 in
theorem leap_mid : addDays ⟨2023, 10, 1⟩ 183 = ⟨2024, 4, 1⟩ := by decide

set_option maxRecDepth 20000 in
theorem leap_365 : addDays ⟨2023, 10, 1⟩ 365 = ⟨2024, 9, 30⟩ := by
  calc addDays ⟨2023, 10, 1⟩ 365
      = addDays (addDays ⟨2023, 10, 1⟩ 183) 182 :=
        Function.iterate_add_apply nextDay 182 183 _
    _ = addDays ⟨2024, 4, 1⟩ 182 := by rw [leap_mid]
    _ = ⟨2024, 9, 30⟩ := by decide

set_option maxRecDepth 20000 in
theorem leap_151 : addDays ⟨2023, 10, 1⟩ 151 = ⟨2024, 2, 29⟩ := by decide

set_option maxRecDepth 20000 in
theorem leap_feb_year :
    (iterTraj ⟨2023, 10, 1⟩ 365).all
      (fun d => d.month != 2 || d.year == 2024) = true := by
  have hsplit := iterTraj_append 182 183 (⟨2023, 10, 1⟩ : Date)
  rw [leap_mid] at hsplit
  rw [show (365 : ℕ) = 183 + 182 from rfl, hsplit, List.all_append,
    Bool.and_eq_true]
  exact ⟨by decide, by decide⟩

set_option maxRecDepth 20000 in
theorem leap_no_oct1_all :
    (iterTraj ⟨2023, 10, 2⟩ 365).all
      (fun d => !(d.month == 10 && d.day == 1)) = true := by
  have hsplit := iterTraj_append 182 183 (⟨2023, 10, 2⟩ : Date)
  have hmid : addDays ⟨2023, 10, 2⟩ 183 = (⟨2024, 4, 2⟩ : Date) := by decide
  rw [hmid] at hsplit
  rw [show (365 : ℕ) = 183 + 182 from rfl, hsplit, List.all_append,
    Bool.and_eq_true]
  exact ⟨by decide, by decide⟩

/-- Along the representative leap-season trajectory, any date in
February lies in year 2024. -/
theorem leap_feb_in_2024 (j : ℕ) (hj : j < 365)
    (hm : (addDays ⟨2023, 10, 1⟩ j).month = 2) :
    (addDays ⟨2023, 10, 1⟩ j).year = 2024 := by
  have h := (all_iterTraj_iff _ _ _).mp leap_feb_year j hj
  rw [hm] at h
  simpa using h

/-- Trajectory transfer for a leap season: the path out of
`Oct 1 (Y-1)` is the year-shifted path out of `Oct 1 2023`. -/
theorem leap_shift (Y : ℤ) (hl : isLeap Y = true) (j : ℕ) (hj : j ≤ 365) :
    addDays ⟨Y - 1, 10, 1⟩ j =
      shiftY (Y - 2024) (addDays ⟨2023, 10, 1⟩ j) := by
  have hstart : (⟨Y - 1, 10, 1⟩ : Date) = shiftY (Y - 2024) ⟨2023, 10, 1⟩ := by
    simp only [shiftY]
    congr 1
    omega
  rw [hstart]
  apply addDays_shiftY
  intro j' hj' hm2
  have hy : (addDays ⟨2023, 10, 1⟩ j').year = 2024 :=
    leap_feb_in_2024 j' (by omega) hm2
  rw [hy]
  rw [show (2024 : ℤ) + (Y - 2024) = Y by ring, hl]
  decide

/-- Between one and 365 days after `Oct 1 2023` the trajectory never
lands on an October 1st. -/
theorem leap_no_oct1 (j : ℕ) (h1 : 1 ≤ j) (h365 : j ≤ 365) :
    ¬((addDays ⟨2023, 10, 1⟩ j).month = 10 ∧
      (addDays ⟨2023, 10, 1⟩ j).day = 1) := by
  have hrw : addDays (⟨2023, 10, 1⟩ : Date) j =
      addDays (⟨2023, 10, 2⟩ : Date) (j - 1) := by
    rw [show j = (j - 1) + 1 by omega]
    show nextDay^[(j - 1) + 1] _ = _
    rw [Function.iterate_succ_apply]
    rfl
  have h := (all_iterTraj_iff _ _ _).mp leap_no_oct1_all (j - 1) (by omega)
  rw [← hrw] at h
  rintro ⟨hm, hd⟩
  rw [hm, hd] at h
  simp at h

/-- In a leap season the loop runs its full 366 iterations. -/
theorem snow_year_leap_rep (Y : ℤ) (hl : isLeap Y = true) :
    get_snow_year_dates Y =
      (List.range 366).map (addDays ⟨Y - 1, 10, 1⟩) := by
  unfold get_snow_year_dates
  rw [buildDates_no_break ⟨Y - 1, 10, 1⟩ 366 366 0 (by omega) (by omega)
    ?hnb ?hbrk]
  · rw [Nat.sub_zero, ← List.range_eq_range']
  case hbrk => intro h; omega
  case hnb =>
    rintro j _ hj366 ⟨hmon, hday, hpos⟩
    have ht := leap_shift Y hl j (by omega)
    rw [ht] at hmon hday
    exact leap_no_oct1 j (by omega) (by omega)
      ⟨by simpa [shiftY] using hmon, by simpa [shiftY] using hday⟩

set_option maxRecDepth 20000 in
theorem nonleap_mid : addDays ⟨2022, 10, 1⟩ 183 = ⟨2023, 4, 2⟩ := by decide

set_option maxRecDepth 20000 in
theorem nonleap_365 : addDays ⟨2022, 10, 1⟩ 365 = ⟨2023, 10, 1⟩ := by
  calc addDays ⟨2022, 10, 1⟩ 365
      = addDays (addDays ⟨2022, 10, 1⟩ 183) 182 :=
        Function.iterate_add_apply nextDay 182 183 _
    _ = addDays ⟨2023, 4, 2⟩ 182 := by rw [nonleap_mid]
    _ = ⟨2023, 10, 1⟩ := by decide

set_option maxRecDepth 20000 in
theorem nonleap_364 : addDays ⟨2022, 10, 1⟩ 364 = ⟨2023, 9, 30⟩ := by
  calc addDays ⟨2022, 10, 1⟩ 364
      = addDays (addDays ⟨2022, 10, 1⟩ 183) 181 :=
        Function.iterate_add_apply nextDay 181 183 _
    _ = addDays ⟨2023, 4, 2⟩ 181 := by rw [nonleap_mid]
    _ = ⟨2023, 9, 30⟩ := by decide

set_option maxRecDepth 20000 in
theorem nonleap_feb_year :
    (iterTraj ⟨2022, 10, 1⟩ 365).all
      (fun d => d.month != 2 || d.year == 2023) = true := by
  have hsplit := iterTraj_append 182 183 (⟨2022, 10, 1⟩ : Date)
  rw [nonleap_mid] at hsplit
  rw [show (365 : ℕ) = 183 + 182 from rfl, hsplit, List.all_append,
    Bool.and_eq_true]
  exact ⟨by decide, by decide⟩

set_option maxRecDepth 20000 in
theorem nonleap_no_oct1_all :
    (iterTraj ⟨2022, 10, 2⟩ 364).all
      (fun d => !(d.month == 10 && d.day == 1)) = true := by
  have hsplit := iterTraj_append 181 183 (⟨2022, 10, 2⟩ : Date)
  have hmid : addDays ⟨2022, 10, 2⟩ 183 = (⟨2023, 4, 3⟩ : Date) := by decide
  rw [hmid] at hsplit
  rw [show (364 : ℕ) = 183 + 181 from rfl, hsplit, List.all_append,
    Bool.and_eq_true]
  exact ⟨by decide, by decide⟩

set_option maxRecDepth 20000 in
theorem nonleap_no_feb29 :
    (iterTraj ⟨2022, 10, 1⟩ 365).all
      (fun d => !(d.month == 2 && d.day == 29)) = true := by
  have hsplit := iterTraj_append 182 183 (⟨2022, 10, 1⟩ : Date)
  rw [nonleap_mid] at hsplit
  rw [show (365 : ℕ) = 183 + 182 from rfl, hsplit, List.all_append,
    Bool.and_eq_true]
  exact ⟨by decide, by decide⟩

/-- Along the representative common-season trajectory, any date in
February lies in year 2023. -/
theorem nonleap_feb_in_2023 (j : ℕ) (hj : j < 365)
    (hm : (addDays ⟨2022, 10, 1⟩ j).month = 2) :
    (addDays ⟨2022, 10, 1⟩ j).year = 2023 := by
  have h := (all_iterTraj_iff _ _ _).mp nonleap_feb_year j hj
  rw [hm] at h
  simpa using h

/-- Trajectory transfer for a common season. -/
theorem nonleap_shift (Y : ℤ) (hl : isLeap Y = false) (j : ℕ)
    (hj : j ≤ 365) :
    addDays ⟨Y - 1, 10, 1⟩ j =
      shiftY (Y - 2023) (addDays ⟨2022, 10, 1⟩ j) := by
  have hstart : (⟨Y - 1, 10, 1⟩ : Date) = shiftY (Y - 2023) ⟨2022, 10, 1⟩ := by
    simp only [shiftY]
    congr 1
    omega
  rw [hstart]
  apply addDays_shiftY
  intro j' hj' hm2
  have hy : (addDays ⟨2022, 10, 1⟩ j').year = 2023 :=
    nonleap_feb_in_2023 j' (by omega) hm2
  rw [hy]
  rw [show (2023 : ℤ) + (Y - 2023) = Y by ring, hl]
  decide

/-- Between one and 364 days after `Oct 1 2022` the trajectory never
lands on an October 1st. -/
theorem nonleap_no_oct1 (j : ℕ) (h1 : 1 ≤ j) (h364 : j ≤ 364) :
    ¬((addDays ⟨2022, 10, 1⟩ j).month = 10 ∧
      (addDays ⟨2022, 10, 1⟩ j).day = 1) := by
  have hrw : addDays (⟨2022, 10, 1⟩ : Date) j =
      addDays (⟨2022, 10, 2⟩ : Date) (j - 1) := by
    rw [show j = (j - 1) + 1 by omega]
    show nextDay^[(j - 1) + 1] _ = _
    rw [Function.iterate_succ_apply]
    rfl
  have h := (all_iterTraj_iff _ _ _).mp nonleap_no_oct1_all (j - 1) (by omega)
  rw [← hrw] at h
  rintro ⟨hm, hd⟩
  rw [hm, hd] at h
  simp at h

/-- In a common season the loop breaks at iteration 365 (the next
October 1st). -/
theorem snow_year_nonleap_rep (Y : ℤ) (hl : isLeap Y = false) :
    get_snow_year_dates Y =
      (List.range 365).map (addDays ⟨Y - 1, 10, 1⟩) := by
  unfold get_snow_year_dates
  rw [buildDates_no_break ⟨Y - 1, 10, 1⟩ 365 366 0 (by omega) (by omega)
    ?hnb ?hbrk]
  · rw [Nat.sub_zero, ← List.range_eq_range']
  case hbrk =>
    intro _
    have ht := nonleap_shift Y hl 365 le_rfl
    rw [ht, nonleap_365]
    exact ⟨rfl, rfl, by omega⟩
  case hnb =>
    rintro j _ hj365 ⟨hmon, hday, hpos⟩
    have ht := nonleap_shift Y hl j (by omega)
    rw [ht] at hmon hday
    exact nonleap_no_oct1 j (by omega) (by omega)
      ⟨by simpa [shiftY] using hmon, by simpa [shiftY] using hday⟩

theorem map_range_head_last (f : ℕ → Date) (n : ℕ) (hn : 0 < n) :
    ((List.range n).map f).head? = some (f 0) ∧
    ((List.range n).map f).getLast? = some (f (n - 1)) := by
  constructor
  · rw [List.head?_map, List.head?_eq_getElem?,
      List.getElem?_eq_getElem (by simpa using hn)]
    simp
  · rw [List.getLast?_map, List.getLast?_eq_getElem?, List.length_range,
      List.getElem?_eq_getElem (by simp; omega)]
    simp

theorem chain'_map_range (f : ℕ → Date) (n : ℕ)
    (h : ∀ m, m + 1 < n →
      (f (m + 1) = nextDay (f m) ∧ dateLt (f m) (f (m + 1)))) :
    ((List.range n).map f).Chain' (fun a b => b = nextDay a ∧ dateLt a b) := by
  rw [List.chain'_map]
  cases n with
  | zero => simp
  | succ n' =>
    rw [List.chain'_range_succ]
    intro m hm
    exact h m (by omega)

/-- C6: for every snow year `Y`, `get_snow_year_dates Y` starts at
October 1 of `Y-1`, proceeds in strictly increasing consecutive days
with no gaps, ends at September 30 of `Y`, and has length 366 exactly
when the span contains February 29 (of year `Y`) and 365 otherwise. -/
theorem C6_snow_year_dates (Y : ℤ) :
    (get_snow_year_dates Y).head? = some ⟨Y - 1, 10, 1⟩ ∧
    (get_snow_year_dates Y).getLast? = some ⟨Y, 9, 30⟩ ∧
    (get_snow_year_dates Y).Chain' (fun a b => b = nextDay a ∧ dateLt a b) ∧
    (((⟨Y, 2, 29⟩ : Date) ∈ get_snow_year_dates Y ∧
        (get_snow_year_dates Y).length = 366) ∨
      ((⟨Y, 2, 29⟩ : Date) ∉ get_snow_year_dates Y ∧
        (get_snow_year_dates Y).length = 365)) := by
  by_cases hb : isLeap Y = true
  · rw [snow_year_leap_rep Y hb]
    refine ⟨?_, ?_, ?_, Or.inl ⟨?_, ?_⟩⟩
    · exact (map_range_head_last _ 366 (by omega)).1
    · rw [(map_range_head_last (addDays ⟨Y - 1, 10, 1⟩) 366 (by omega)).2]
      rw [show (366 - 1 : ℕ) = 365 from rfl]
      rw [leap_shift Y hb 365 le_rfl, leap_365]
      simp only [shiftY]
      congr 2
      omega
    · apply chain'_map_range
      intro m _
      refine ⟨Function.iterate_succ_apply' nextDay m _, ?_⟩
      have heq : addDays ⟨Y - 1, 10, 1⟩ (m + 1) =
          nextDay (addDays ⟨Y - 1, 10, 1⟩ m) :=
        Function.iterate_succ_apply' nextDay m _
      rw [heq]
      exact dateLt_nextDay _
    · apply List.mem_map.mpr
      refine ⟨151, by simp, ?_⟩
      rw [leap_shift Y hb 151 (by omega), leap_151]
      simp only [shiftY]
      congr 2
      omega
    · simp
  · have hb' : isLeap Y = false := by simpa using hb
    rw [snow_year_nonleap_rep Y hb']
    refine ⟨?_, ?_, ?_, Or.inr ⟨?_, ?_⟩⟩
    · exact (map_range_head_last _ 365 (by omega)).1
    · rw [(map_range_head_last (addDays ⟨Y - 1, 10, 1⟩) 365 (by omega)).2]
      rw [show (365 - 1 : ℕ) = 364 from rfl]
      rw [nonleap_shift Y hb' 364 (by omega), nonleap_364]
      simp only [shiftY]
      congr 2
      omega
    · apply chain'_map_range
      intro m _
      refine ⟨Function.iterate_succ_apply' nextDay m _, ?_⟩
      have heq : addDays ⟨Y - 1, 10, 1⟩ (m + 1) =
          nextDay (addDays ⟨Y - 1, 10, 1⟩ m) :=
        Function.iterate_succ_apply' nextDay m _
      rw [heq]
      exact dateLt_nextDay _
    · intro hmem
      obtain ⟨j, hjr, hje⟩ := List.mem_map.mp hmem
      have hj : j < 365 := List.mem_range.mp hjr
      rw [nonleap_shift Y hb' j (by omega)] at hje
      have hm : (addDays ⟨2022, 10, 1⟩ j).month = 2 := by
        have := congrArg Date.month hje
        simpa [shiftY] using this
      have hd : (addDays ⟨2022, 10, 1⟩ j).day = 29 := by
        have := congrArg Date.day hje
        simpa [shiftY] using this
      have h := (all_iterTraj_iff _ _ _).mp nonleap_no_feb29 j hj
      rw [hm, hd] at h
      simp at h
    · simp

/-- Witness for C6: the snow year 2025 starts on 2024-10-01. -/
theorem C6_witness :
    (get_snow_year_dates 2025).head? = some ⟨2025 - 1, 10, 1⟩ :=
  (C6_snow_year_dates 2025).1

/-! ### Lemmas about the profile builders -/

theorem findBucket_eq_none {β : Type} (l : List (String × β)) (k : String) :
    findBucket l k = Option.none ↔ k ∉ l.map Prod.fst := by
  induction l with
  | nil => simp [findBucket]
  | cons kv rest ih =>
    obtain ⟨k', vs⟩ := kv
    simp only [findBucket, List.map_cons, List.mem_cons]
    by_cases hk : k' = k
    · simp [hk]
    · simp only [if_neg hk, ih]
      constructor
      · rintro h (rfl | hmem)
        · exact hk rfl
        · exact h hmem
      · intro h hmem
        exact h (Or.inr hmem)

theorem findBucket_isSome {β : Type} (l : List (String × β)) (k : String) :
    (findBucket l k).isSome = true ↔ k ∈ l.map Prod.fst := by
  rw [← not_iff_not, ← findBucket_eq_none]
  cases findBucket l k <;> simp

theorem appendToBucket_keys (l : List (String × List ℚ)) (k : String)
    (v : ℚ) : (appendToBucket l k v).map Prod.fst = l.map Prod.fst := by
  induction l with
  | nil => rfl
  | cons kv rest ih =>
    obtain ⟨k', vs⟩ := kv
    simp only [appendToBucket]
    by_cases hk : k' = k
    · simp [hk]
    · simp [hk, ih]

theorem findBucket_appendToBucket (l : List (String × List ℚ))
    (kk : String) (v : ℚ) (k : String) :
    findBucket (appendToBucket l kk v) k =
      if k = kk then (findBucket l k).map (fun vs => vs ++ [v])
      else findBucket l k := by
  induction l with
  | nil =>
    simp only [appendToBucket, findBucket]
    split <;> rfl
  | cons kv rest ih =>
    obtain ⟨k', vs⟩ := kv
    by_cases h1 : k' = kk
    · rw [show appendToBucket ((k', vs) :: rest) kk v =
        (k', vs ++ [v]) :: rest by simp [appendToBucket, h1]]
      by_cases h2 : k' = k
      · have hk : k = kk := by rw [← h2, h1]
        rw [if_pos hk]
        show (if k' = k then some (vs ++ [v]) else findBucket rest k) =
          Option.map (fun vs => vs ++ [v])
            (if k' = k then some vs else findBucket rest k)
        rw [if_pos h2, if_pos h2]
        rfl
      · have hk : ¬k = kk := fun h => h2 (h1.trans h.symm)
        rw [if_neg hk]
        show (if k' = k then some (vs ++ [v]) else findBucket rest k) =
          (if k' = k then some vs else findBucket rest k)
        rw [if_neg h2, if_neg h2]
    · rw [show appendToBucket ((k', vs) :: rest) kk v =
        (k', vs) :: appendToBucket rest kk v by simp [appendToBucket, h1]]
      show (if k' = k then some vs else findBucket (appendToBucket rest kk v) k) =
        if k = kk
          then Option.map (fun vs => vs ++ [v])
            (if k' = k then some vs else findBucket rest k)
          else if k' = k then some vs else findBucket rest k
      by_cases h2 : k' = k
      · have hk : ¬k = kk := fun h => h1 (h2.trans h)
        rw [if_neg hk, if_pos h2, if_pos h2]
      · rw [if_neg h2, ih]
        by_cases hk : k = kk
        · rw [if_pos hk, if_pos hk, if_neg h2]
        · rw [if_neg hk, if_neg hk, if_neg h2]

theorem findBucket_append_single {β : Type} (l : List (String × β))
    (kk : String) (v0 : β) (k : String) :
    findBucket (l ++ [(kk, v0)]) k =
      match findBucket l k with
      | some vs => some vs
      | Option.none => if kk = k then some v0 else Option.none := by
  induction l with
  | nil => rfl
  | cons kv rest ih =>
    obtain ⟨k', vs⟩ := kv
    rw [List.cons_append]
    show (if k' = k then some vs else findBucket (rest ++ [(kk, v0)]) k) = _
    by_cases h : k' = k
    · rw [if_pos h]
      show some vs = (match (if k' = k then some vs else findBucket rest k) with
        | some vs => some vs
        | Option.none => if kk = k then some v0 else Option.none)
      rw [if_pos h]
    · rw [if_neg h, ih]
      show _ = (match (if k' = k then some vs else findBucket rest k) with
        | some vs => some vs
        | Option.none => if kk = k then some v0 else Option.none)
      rw [if_neg h]

/-- One loop iteration preserves distinctness of the bucket keys. -/
theorem processEntry_keys_nodup (A : List (String × List ℚ)) (e : Entry)
    (h : (A.map Prod.fst).Nodup) :
    ((processEntry A e).map Prod.fst).Nodup := by
  unfold processEntry
  split
  · exact h
  · split
    · exact h
    · rename_i ymd _
      have hkeys1 : ∀ B : List (String × List ℚ), (B.map Prod.fst).Nodup →
          (((if (findBucket B (mmdd ymd.2.1 ymd.2.2)).isSome then B
              else B ++ [(mmdd ymd.2.1 ymd.2.2, [])]).map Prod.fst)).Nodup := by
        intro B hB
        split
        · exact hB
        · rename_i hns
          rw [List.map_append]
          apply List.Nodup.append hB (by simp)
          intro a ha hb
          simp at hb
          subst hb
          have : (findBucket B (mmdd ymd.2.1 ymd.2.2)).isSome = true :=
            (findBucket_isSome _ _).mpr ha
          simp [this] at hns
      split
      · exact hkeys1 A h
      · rw [appendToBucket_keys]
        exact hkeys1 A h

/-- The bucket dict built by the loop has distinct keys. -/
theorem dayBuckets_keys_nodup (hd : List Entry) :
    ((dayBuckets hd).map Prod.fst).Nodup := by
  have haux : ∀ (l : List Entry) (A : List (String × List ℚ)),
      (A.map Prod.fst).Nodup →
      ((l.foldl processEntry A).map Prod.fst).Nodup := by
    intro l
    induction l with
    | nil => intro A hA; exact hA
    | cons e rest ih =>
      intro A hA
      exact ih _ (processEntry_keys_nodup A e hA)
  exact haux hd [] (by simp)

/-- Keys of the key-preserving `filterMap` used by the statistics maps
are among the bucket keys. -/
theorem filterMap_keys_sub (g : List ℚ → Option ℚ)
    (l : List (String × List ℚ)) (k : String)
    (hk : k ∈ (l.filterMap
      (fun kv => (g kv.2).map (fun q => (kv.1, q)))).map Prod.fst) :
    k ∈ l.map Prod.fst := by
  obtain ⟨x, hx, rfl⟩ := List.mem_map.mp hk
  obtain ⟨kv, hkv, hfx⟩ := List.mem_filterMap.mp hx
  cases hg : g kv.2 with
  | none => rw [hg] at hfx; simp at hfx
  | some q =>
    rw [hg] at hfx
    simp only [Option.map_some'] at hfx
    have hx : (kv.1, q) = x := Option.some.inj hfx
    rw [← hx]
    exact List.mem_map_of_mem _ hkv

/-- Looking up a key in the statistic map is looking up its bucket and
aggregating. -/
theorem findBucket_filterMap (g : List ℚ → Option ℚ) :
    ∀ (l : List (String × List ℚ)), (l.map Prod.fst).Nodup → ∀ k,
    findBucket (l.filterMap (fun kv => (g kv.2).map (fun q => (kv.1, q)))) k
      = (findBucket l k).bind g := by
  intro l
  induction l with
  | nil => intro _ k; rfl
  | cons kv rest ih =>
    intro hnd k
    obtain ⟨k', vs⟩ := kv
    have hnd' : (rest.map Prod.fst).Nodup := hnd.of_cons
    have hknotin : k' ∉ rest.map Prod.fst := by
      have := hnd
      simp only [List.map_cons, List.nodup_cons] at this
      exact this.1
    rw [List.filterMap_cons]
    cases hg : g vs with
    | none =>
      simp only [Option.map_none']
      rw [ih hnd' k]
      show _ = Option.bind (if k' = k then some vs else findBucket rest k) g
      by_cases hk : k' = k
      · rw [if_pos hk]
        have hnone : findBucket rest k = Option.none :=
          (findBucket_eq_none _ _).mpr (hk ▸ hknotin)
        rw [hnone]
        show Option.none = Option.bind (some vs) g
        show Option.none = g vs
        rw [hg]
      · rw [if_neg hk]
    | some q =>
      simp only [Option.map_some']
      show (if k' = k then some q else _) =
        Option.bind (if k' = k then some vs else findBucket rest k) g
      by_cases hk : k' = k
      · rw [if_pos hk, if_pos hk]
        show some q = g vs
        rw [hg]
      · rw [if_neg hk, if_neg hk]
        exact ih hnd' k

/-- Shared shape of the two statistic maps: looking up a key is
looking up its bucket and aggregating the non-empty group. -/
theorem stats_lookup (F : List ℚ → ℚ) (hd : List Entry) (k : String) :
    findBucket ((dayBuckets hd).filterMap fun kv =>
        if kv.2.isEmpty then Option.none else some (kv.1, F kv.2)) k
      = (findBucket (dayBuckets hd) k).bind
        (fun vals => if vals.isEmpty then Option.none else some (F vals)) := by
  have hpt : ∀ kv : String × List ℚ,
      (if kv.2.isEmpty then Option.none else some (kv.1, F kv.2))
        = ((fun vals : List ℚ => if vals.isEmpty then Option.none
            else some (F vals)) kv.2).map (fun q => (kv.1, q)) := by
    intro kv
    by_cases h : kv.2.isEmpty <;> simp [h]
  simp only [hpt]
  exact findBucket_filterMap
    (fun vals : List ℚ => if vals.isEmpty then Option.none else some (F vals))
    (dayBuckets hd) (dayBuckets_keys_nodup hd) k

/-- C7: both builders group the valid observations by month-day key
and map every key to the statistical median (middle of the sorted
group, or mean of the two middle values) resp. the arithmetic mean of
its group; empty groups are absent. -/
theorem C7_group_and_aggregate (hd : List Entry) (k : String) :
    findBucket (calculate_daily_medians hd) k
      = (findBucket (dayBuckets hd) k).bind
        (fun vals => if vals.isEmpty then Option.none
          else some (median vals)) ∧
    findBucket (calculate_daily_means hd) k
      = (findBucket (dayBuckets hd) k).bind
        (fun vals => if vals.isEmpty then Option.none
          else some (mean vals)) :=
  ⟨stats_lookup median hd k, stats_lookup mean hd k⟩

/-- Witness for C7: the observation set bucketing to
`{01-01:[10,12,11], 01-02:[15,17]}` yields medians
`{01-01:11, 01-02:16}` and means `{01-01:11, 01-02:16}`. -/
theorem C7_witness :
    calculate_daily_medians exampleObservations
        = [("01-01", 11), ("01-02", 16)] ∧
    calculate_daily_means exampleObservations
        = [("01-01", 11), ("01-02", 16)] ∧
    findBucket (calculate_daily_medians exampleObservations) "01-01"
        = some (median [10, 12, 11]) := by
  refine ⟨by decide, by decide, ?_⟩
  rw [(C7_group_and_aggregate exampleObservations "01-01").1]
  decide

/-- Loop-body shape when the whole entry is usable. -/
theorem processEntry_valid (A : List (String × List ℚ)) (e : Entry)
    (ymd : ℕ × ℕ × ℕ) (v : ℚ)
    (hdn : ¬e.date = PyVal.none) (hvn : ¬e.value = PyVal.none)
    (hp : parseDate e.date = some ymd) (hf : pyFloat e.value = some v) :
    processEntry A e = appendToBucket
      (if (findBucket A (mmdd ymd.2.1 ymd.2.2)).isSome then A
        else A ++ [(mmdd ymd.2.1 ymd.2.2, [])])
      (mmdd ymd.2.1 ymd.2.2) v := by
  unfold processEntry
  rw [if_neg (by simp [hdn, hvn])]
  simp only [hp, hf]

/-- Loop-body shape when a field is absent. -/
theorem processEntry_nonefield (A : List (String × List ℚ)) (e : Entry)
    (h : e.date = PyVal.none ∨ e.value = PyVal.none) :
    processEntry A e = A := by
  unfold processEntry
  rw [if_pos h]

/-- Loop-body shape when the date fails to parse. -/
theorem processEntry_baddate (A : List (String × List ℚ)) (e : Entry)
    (hdn : ¬e.date = PyVal.none) (hvn : ¬e.value = PyVal.none)
    (hp : parseDate e.date = Option.none) :
    processEntry A e = A := by
  unfold processEntry
  rw [if_neg (by simp [hdn, hvn])]
  simp only [hp]

/-- Loop-body shape when the date parses but the value conversion
raises: only the (possibly fresh, empty) bucket remains. -/
theorem processEntry_badfloat (A : List (String × List ℚ)) (e : Entry)
    (ymd : ℕ × ℕ × ℕ)
    (hdn : ¬e.date = PyVal.none) (hvn : ¬e.value = PyVal.none)
    (hp : parseDate e.date = some ymd) (hf : pyFloat e.value = Option.none) :
    processEntry A e =
      (if (findBucket A (mmdd ymd.2.1 ymd.2.2)).isSome then A
        else A ++ [(mmdd ymd.2.1 ymd.2.2, [])]) := by
  unfold processEntry
  rw [if_neg (by simp [hdn, hvn])]
  simp only [hp, hf]

/-- Ensuring a bucket for `key` does not affect lookups of other keys. -/
theorem findBucket_ensure_stable (C : List (String × List ℚ))
    (key k : String) (hk : ¬k = key) :
    findBucket (if (findBucket C key).isSome then C else C ++ [(key, [])]) k
      = findBucket C k := by
  split
  · rfl
  · rw [findBucket_append_single]
    cases hC : findBucket C k with
    | none =>
      show (if key = k then some [] else Option.none) = Option.none
      rw [if_neg (fun h => hk h.symm)]
    | some vs => rfl

/-- A usable entry advances related bucket dicts to related bucket
dicts. -/
theorem bucketsRel_step_valid (A B : List (String × List ℚ)) (e : Entry)
    (hval : validEntry e = true) (hR : bucketsRel A B) :
    bucketsRel (processEntry A e) (processEntry B e) := by
  simp only [validEntry, Bool.and_eq_true, bne_iff_ne, ne_eq,
    Option.isSome_iff_exists] at hval
  obtain ⟨⟨⟨hdn, hvn⟩, ymd, hp⟩, v, hf⟩ := hval
  rw [processEntry_valid A e ymd v hdn hvn hp hf,
    processEntry_valid B e ymd v hdn hvn hp hf]
  intro k
  set key := mmdd ymd.2.1 ymd.2.2 with hkey
  rw [findBucket_appendToBucket, findBucket_appendToBucket]
  by_cases hk : k = key
  · rw [if_pos hk, if_pos hk, hk]
    rcases hR key with heq | ⟨hA, hB⟩
    · cases hA2 : findBucket A key with
      | none =>
        have hB2 : findBucket B key = Option.none := by rw [← heq, hA2]
        rw [if_neg (by simp [hA2]), if_neg (by simp [hB2])]
        left
        rw [findBucket_append_single, findBucket_append_single, hA2, hB2]
      | some vs =>
        have hB2 : findBucket B key = some vs := by rw [← heq, hA2]
        rw [if_pos (by simp [hA2]), if_pos (by simp [hB2])]
        left
        rw [hA2, hB2]
    · rw [if_pos (by simp [hA]), if_neg (by simp [hB])]
      left
      rw [hA, findBucket_append_single, hB]
      simp
  · rw [if_neg hk, if_neg hk,
      findBucket_ensure_stable A key k hk, findBucket_ensure_stable B key k hk]
    exact hR k

/-- A malformed entry keeps the full-run bucket dict related to the
untouched filtered-run dict. -/
theorem bucketsRel_step_invalid (A B : List (String × List ℚ)) (e : Entry)
    (hval : validEntry e = false) (hR : bucketsRel A B) :
    bucketsRel (processEntry A e) B := by
  by_cases h1 : e.date = PyVal.none ∨ e.value = PyVal.none
  · rw [processEntry_nonefield A e h1]; exact hR
  · push_neg at h1
    obtain ⟨hdn, hvn⟩ := h1
    cases hp : parseDate e.date with
    | none => rw [processEntry_baddate A e hdn hvn hp]; exact hR
    | some ymd =>
      cases hf : pyFloat e.value with
      | some v =>
        exfalso
        simp [validEntry, hdn, hvn, hp, hf] at hval
      | none =>
        rw [processEntry_badfloat A e ymd hdn hvn hp hf]
        intro k
        set key := mmdd ymd.2.1 ymd.2.2 with hkey
        by_cases hk : k = key
        · rw [hk]
          split
          · exact hR key
          · rename_i hns
            have hA : findBucket A key = Option.none := by
              cases h : findBucket A key
              · rfl
              · rw [h] at hns; simp at hns
            have hB : findBucket B key = Option.none := by
              rcases hR key with heq | ⟨hA2, _⟩
              · rw [← heq, hA]
              · rw [hA2] at hA; cases hA
            right
            refine ⟨?_, hB⟩
            rw [findBucket_append_single, hA]
            simp
        · rw [findBucket_ensure_stable A key k hk]
          exact hR k

/-- Folding the loop over the whole input and over its valid portion
produces related bucket dicts. -/
theorem bucketsRel_foldl :
    ∀ (hd : List Entry) (A B : List (String × List ℚ)), bucketsRel A B →
    bucketsRel (hd.foldl processEntry A)
      ((hd.filter validEntry).foldl processEntry B) := by
  intro hd
  induction hd with
  | nil => intro A B h; exact h
  | cons e rest ih =>
    intro A B hR
    rw [List.foldl_cons, List.filter_cons]
    cases hval : validEntry e with
    | false =>
      simp only [hval, Bool.false_eq_true, if_false]
      exact ih _ _ (bucketsRel_step_invalid A B e hval hR)
    | true =>
      simp only [hval, if_true, List.foldl_cons]
      exact ih _ _ (bucketsRel_step_valid A B e hval hR)

/-- On an entirely malformed input every bucket the loop leaves behind
is empty. -/
theorem dayBuckets_all_invalid (hd : List Entry)
    (hall : ∀ e ∈ hd, validEntry e = false) :
    ∀ kv ∈ dayBuckets hd, kv.2 = ([] : List ℚ) := by
  have haux : ∀ (l : List Entry) (A : List (String × List ℚ)),
      (∀ e ∈ l, validEntry e = false) →
      (∀ kv ∈ A, kv.2 = ([] : List ℚ)) →
      ∀ kv ∈ l.foldl processEntry A, kv.2 = ([] : List ℚ) := by
    intro l
    induction l with
    | nil => intro A _ hA; exact hA
    | cons e rest ih =>
      intro A hall hA
      rw [List.foldl_cons]
      refine ih _ (fun e' he' => hall e' (by simp [he'])) ?_
      have hval : validEntry e = false := hall e (by simp)
      by_cases h1 : e.date = PyVal.none ∨ e.value = PyVal.none
      · rw [processEntry_nonefield A e h1]; exact hA
      · push_neg at h1
        obtain ⟨hdn, hvn⟩ := h1
        cases hp : parseDate e.date with
        | none => rw [processEntry_baddate A e hdn hvn hp]; exact hA
        | some ymd =>
          cases hf : pyFloat e.value with
          | some v =>
            exfalso
            simp [validEntry, hdn, hvn, hp, hf] at hval
          | none =>
            rw [processEntry_badfloat A e ymd hdn hvn hp hf]
            split
            · exact hA
            · intro kv hkv
              rcases List.mem_append.mp hkv with hmem | hmem
              · exact hA kv hmem
              · simp at hmem
                simp [hmem]
  exact haux hd [] hall (by simp)

/-- C8: the statistic maps never raise, malformed entries are silently
excluded (filtering the input down to its valid entries leaves every
lookup unchanged), and an entirely malformed input yields the empty
mapping. -/
theorem C8_malformed_omitted (hd : List Entry) (k : String) :
    findBucket (calculate_daily_medians hd) k
      = findBucket (calculate_daily_medians (hd.filter validEntry)) k ∧
    findBucket (calculate_daily_means hd) k
      = findBucket (calculate_daily_means (hd.filter validEntry)) k ∧
    ((∀ e ∈ hd, validEntry e = false) →
      calculate_daily_medians hd = [] ∧ calculate_daily_means hd = []) := by
  have hrel : bucketsRel (dayBuckets hd) (dayBuckets (hd.filter validEntry)) :=
    bucketsRel_foldl hd [] [] (fun k => Or.inl rfl)
  refine ⟨?_, ?_, ?_⟩
  · unfold calculate_daily_medians
    rw [stats_lookup median hd k, stats_lookup median (hd.filter validEntry) k]
    rcases hrel k with heq | ⟨hA, hB⟩
    · rw [heq]
    · rw [hA, hB]
      simp
  · unfold calculate_daily_means
    rw [stats_lookup mean hd k, stats_lookup mean (hd.filter validEntry) k]
    rcases hrel k with heq | ⟨hA, hB⟩
    · rw [heq]
    · rw [hA, hB]
      simp
  · intro hall
    have hempty := dayBuckets_all_invalid hd hall
    constructor
    · unfold calculate_daily_medians
      apply List.filterMap_eq_nil_iff.mpr
      intro kv hkv
      simp [hempty kv hkv]
    · unfold calculate_daily_means
      apply List.filterMap_eq_nil_iff.mpr
      intro kv hkv
      simp [hempty kv hkv]

/-- Witness for C8: the malformed input
`[{"date":"invalid","value":10}, {"date":"2020-01-01","value":"x"}]`
yields empty medians and means, and filtering it changes no lookup. -/
theorem C8_witness :
    calculate_daily_medians malformedObservations = [] ∧
    calculate_daily_means malformedObservations = [] ∧
    findBucket (calculate_daily_medians malformedObservations) "01-01"
      = findBucket (calculate_daily_medians
          (malformedObservations.filter validEntry)) "01-01" := by
  refine ⟨?_, ?_, (C8_malformed_omitted malformedObservations "01-01").1⟩
  · exact ((C8_malformed_omitted malformedObservations "01-01").2.2
      (by decide)).1
  · exact ((C8_malformed_omitted malformedObservations "01-01").2.2
      (by decide)).2

/-- C10: the two statistic maps always carry exactly the same keys, in
the same order: the bucketing loops are identical, so a day key is
present in the median map iff it is present in the mean map. -/
theorem C10_same_keys (hd : List Entry) :
    (calculate_daily_medians hd).map Prod.fst
      = (calculate_daily_means hd).map Prod.fst := by
  unfold calculate_daily_medians calculate_daily_means
  generalize dayBuckets hd = l
  induction l with
  | nil => rfl
  | cons kv rest ih =>
    rw [List.filterMap_cons, List.filterMap_cons]
    by_cases h : kv.2.isEmpty
    · rw [if_pos h, if_pos h]
      exact ih
    · rw [if_neg h, if_neg h]
      simp only [List.map_cons]
      rw [ih]

end SnowAnalyzer
